import Mathlib

/-!
Verification of the conversation-threading model of Explora.AI.

The definitions below are a shallow embedding of the thread grouping
algorithm implemented in `src/components/chat/MessagesList.tsx`
(`messageGroups`, lines 46-69) and of the message-store append performed by
`handleSendMessage` in the chat container (`setMessages(prev => [...prev, m])`).
Messages carry an optional `parentId`; the JavaScript code tests it with
`if (message.parentId)`, a truthiness test, so a present-but-empty string
behaves exactly like an absent one.  `parentOf` captures that test.
-/

namespace ThreadModel

/-- Message roles, from the `ChatMessage` type: 'user' | 'assistant' | 'system'. -/
inductive Role where
  | user
  | assistant
  | system
deriving DecidableEq, Repr

/-- The `ThreadedMessage` interface of `MessagesList.tsx`: a `ChatMessage`
(id, role, content, timestamp) extended with the optional threading fields
`parentId` and `threadIds`. -/
structure Message where
  id : String
  role : Role
  content : String
  timestamp : Nat
  parentId : Option String := none
  threadIds : Option (List String) := none
deriving DecidableEq, Repr

/-- A thread group as built by `messageGroups`:
`{ id: message.id, message, replies: [] }` at creation, replies pushed later.
The `id` field is the anchor's message id and is never modified afterwards. -/
structure ThreadGroup where
  id : String
  message : Message
  replies : List Message
deriving DecidableEq, Repr

/-- The parent reference actually used by the code.  The JavaScript branch
`if (message.parentId)` is a truthiness test on an optional string, so the
message has a usable parent reference exactly when `parentId` is present and
nonempty; `parentOf` returns that reference, and `none` otherwise. -/
def parentOf (m : Message) : Option String :=
  match m.parentId with
  | none => none
  | some p => if p = "" then none else some p

/-- The group pushed for a message treated as a main message (anchor):
`groups.push({ id: message.id, message, replies: [] })`. -/
def mkGroup (m : Message) : ThreadGroup :=
  { id := m.id, message := m, replies := [] }

/-- `parentGroup.replies.push(message)`: the found group with one more reply
at the end; id and anchor message are untouched. -/
def pushReply (g : ThreadGroup) (m : Message) : ThreadGroup :=
  { id := g.id, message := g.message, replies := g.replies ++ [m] }

/-- The reply branch of the reducer:
`groups.find(group => group.id === message.parentId)` followed by either
`parentGroup.replies.push(message)` (first group whose id matches, updated in
place) or, when the find fails, `groups.push({id: message.id, message,
replies: []})` (the message becomes its own anchor at the end). -/
def addReplyToFirst (pid : String) (m : Message) : List ThreadGroup → List ThreadGroup
  | [] => [mkGroup m]
  | g :: gs =>
    if g.id = pid then pushReply g m :: gs
    else g :: addReplyToFirst pid m gs

/-- One step of the reducer body in `messageGroups` (lines 46-69 of
`MessagesList.tsx`). -/
def groupStep (gs : List ThreadGroup) (m : Message) : List ThreadGroup :=
  match parentOf m with
  | some pid => addReplyToFirst pid m gs
  | none => gs ++ [mkGroup m]

/-- `messages.reduce((groups, message) => ..., [])`: the full grouping pass. -/
def group (msgs : List Message) : List ThreadGroup :=
  msgs.foldl groupStep []

/-- The message-store append performed by `handleSendMessage`:
`setMessages(prev => [...prev, m])`.  It performs no validation of any kind;
in particular it never inspects ids. -/
def append (store : List Message) (m : Message) : List Message :=
  store ++ [m]

/-- Error taxonomy of spec section 7 (`DuplicateIdError`,
`MalformedMessageError`). -/
inductive ThreadError where
  | duplicateId
  | malformedMessage
deriving DecidableEq, Repr

/-- The `append` described by the spec's words (section 4.1): "Fails with
`DuplicateIdError` if `id` already present", otherwise "appends to the end of
the internal ordered collection".  Stated only to be compared with the code's
`append`, which never checks. -/
def appendSpec (store : List Message) (m : Message) : Except ThreadError (List Message) :=
  if store.any (fun m' => m'.id = m.id) then
    Except.error ThreadError.duplicateId
  else
    Except.ok (store ++ [m])

/-- Messages with no (truthy) parent reference, in store order: the anchors
described by the spec. -/
def anchorsOf (msgs : List Message) : List Message :=
  msgs.filter (fun m => (parentOf m).isNone)

/-- Messages whose parent reference is `aid`, in store order. -/
def repliesOf (msgs : List Message) (aid : String) : List Message :=
  msgs.filter (fun m => decide (parentOf m = some aid))

/-- The output shape the spec describes for `group()` on a well-formed store:
one ThreadGroup per anchor, in anchor insertion order, each carrying exactly
the messages that reference that anchor, in their insertion order.  Stated
only to be compared with the code's `group`. -/
def groupSpec (msgs : List Message) : List ThreadGroup :=
  (anchorsOf msgs).map (fun a => { id := a.id, message := a, replies := repliesOf msgs a.id })

/-- A store in which every message bearing a (truthy) parent reference points
at the id of a strictly earlier message that has no parent reference. -/
def WellParented (msgs : List Message) : Prop :=
  ∀ i, (hi : i < msgs.length) → parentOf msgs[i] = none ∨
    ∃ a ∈ msgs.take i, parentOf a = none ∧ parentOf msgs[i] = some a.id

instance : DecidablePred WellParented := fun msgs => by
  unfold WellParented
  infer_instance

/-- All messages carried by a list of groups, each group contributing its
anchor message followed by its replies. -/
def flattenGroups : List ThreadGroup → List Message
  | [] => []
  | g :: gs => g.message :: (g.replies ++ flattenGroups gs)

/-- All replies carried by a list of groups. -/
def repliesAll : List ThreadGroup → List Message
  | [] => []
  | g :: gs => g.replies ++ repliesAll gs

/-- Well-formedness of a single produced group: its `id` is its anchor's id
and every reply's parent reference is that id. -/
def GroupWF (g : ThreadGroup) : Prop :=
  g.id = g.message.id ∧ ∀ r ∈ g.replies, parentOf r = some g.id

/-- `g'` is `g` later in the fold: same id and anchor, possibly more replies. -/
def GroupLe (g g' : ThreadGroup) : Prop :=
  g'.id = g.id ∧ g'.message = g.message ∧ g.replies ⊆ g'.replies

/-- Concrete sample messages, mirroring the spec's example scenario in
section 8 and the orphan / duplicate-id scenarios; used by the witness
theorems below. -/
def msgA : Message :=
  { id := "1", role := Role.user, content := "What is inflation?", timestamp := 0 }

def msgB : Message :=
  { id := "2", role := Role.assistant, content := "Inflation is a rise in prices.", timestamp := 1 }

def msgR : Message :=
  { id := "3", role := Role.user, content := "tell me more", timestamp := 2, parentId := some "1" }

def msgOrphan : Message :=
  { id := "4", role := Role.user, content := "follow-up", timestamp := 3, parentId := some "zz" }

def msgToOrphan : Message :=
  { id := "5", role := Role.user, content := "reply to the orphan", timestamp := 4,
    parentId := some "4" }

def msgToReply : Message :=
  { id := "6", role := Role.user, content := "reply to a reply", timestamp := 5,
    parentId := some "3" }

def msgDupA : Message :=
  { id := "7", role := Role.user, content := "first with id 7", timestamp := 6 }

def msgDupB : Message :=
  { id := "7", role := Role.assistant, content := "second with id 7", timestamp := 7 }

def msgToDup : Message :=
  { id := "8", role := Role.user, content := "reply to id 7", timestamp := 8,
    parentId := some "7" }

theorem group_append (xs ys : List Message) :
    group (xs ++ ys) = List.foldl groupStep (group xs) ys := by
  simp [group, List.foldl_append]

theorem group_snoc (xs : List Message) (m : Message) :
    group (xs ++ [m]) = groupStep (group xs) m := by
  simp [group_append]

theorem pushReply_id (g : ThreadGroup) (m : Message) : (pushReply g m).id = g.id := rfl

theorem addReply_no_match (pid : String) (m : Message) :
    ∀ gs : List ThreadGroup, (∀ g ∈ gs, g.id ≠ pid) →
      addReplyToFirst pid m gs = gs ++ [mkGroup m] := by
  intro gs
  induction gs with
  | nil => intro _; rfl
  | cons g gs ih =>
    intro h
    have hg : g.id ≠ pid := h g (List.mem_cons_self g gs)
    simp only [addReplyToFirst, if_neg hg, List.cons_append]
    rw [ih (fun g' hg' => h g' (List.mem_cons_of_mem g hg'))]

theorem addReply_first_match (pid : String) (m : Message) (g : ThreadGroup)
    (l2 : List ThreadGroup) :
    ∀ l1 : List ThreadGroup, (∀ g' ∈ l1, g'.id ≠ pid) → g.id = pid →
      addReplyToFirst pid m (l1 ++ g :: l2) = l1 ++ pushReply g m :: l2 := by
  intro l1
  induction l1 with
  | nil =>
    intro _ hg
    simp [addReplyToFirst, if_pos hg]
  | cons x l1 ih =>
    intro h hg
    have hx : x.id ≠ pid := h x (List.mem_cons_self x l1)
    simp only [List.cons_append, addReplyToFirst, if_neg hx]
    exact congrArg (fun t => x :: t) (ih (fun g' hg' => h g' (List.mem_cons_of_mem x hg')) hg)

theorem flattenGroups_append (xs ys : List ThreadGroup) :
    flattenGroups (xs ++ ys) = flattenGroups xs ++ flattenGroups ys := by
  induction xs with
  | nil => rfl
  | cons g gs ih => simp [flattenGroups, ih]

theorem flatten_addReply (pid : String) (m : Message) :
    ∀ gs : List ThreadGroup,
      List.Perm (flattenGroups (addReplyToFirst pid m gs)) (flattenGroups gs ++ [m]) := by
  intro gs
  induction gs with
  | nil => simp [addReplyToFirst, flattenGroups, mkGroup]
  | cons g gs ih =>
    by_cases hg : g.id = pid
    · simp only [addReplyToFirst, if_pos hg, flattenGroups, pushReply, List.cons_append]
      apply List.Perm.cons
      have hcomm : List.Perm ([m] ++ flattenGroups gs) (flattenGroups gs ++ [m]) :=
        List.perm_append_comm
      simpa [List.append_assoc] using List.Perm.append_left g.replies hcomm
    · simp only [addReplyToFirst, if_neg hg, flattenGroups, List.cons_append]
      apply List.Perm.cons
      simpa [List.append_assoc] using List.Perm.append_left g.replies ih

theorem flatten_groupStep (gs : List ThreadGroup) (m : Message) :
    List.Perm (flattenGroups (groupStep gs m)) (flattenGroups gs ++ [m]) := by
  unfold groupStep
  cases hp : parentOf m with
  | some pid => exact flatten_addReply pid m gs
  | none => simp [flattenGroups_append, flattenGroups, mkGroup]

theorem flatten_foldl (msgs : List Message) :
    ∀ acc : List ThreadGroup,
      List.Perm (flattenGroups (List.foldl groupStep acc msgs)) (flattenGroups acc ++ msgs) := by
  induction msgs with
  | nil => intro acc; simp
  | cons m ms ih =>
    intro acc
    have h2 : List.Perm (flattenGroups (groupStep acc m) ++ ms) ((flattenGroups acc ++ [m]) ++ ms) :=
      List.Perm.append_right ms (flatten_groupStep acc m)
    have h3 := (ih (groupStep acc m)).trans h2
    simpa [List.foldl_cons, List.append_assoc] using h3

theorem flatten_split (gs : List ThreadGroup) :
    List.Perm (flattenGroups gs) (gs.map ThreadGroup.message ++ repliesAll gs) := by
  induction gs with
  | nil => simp [flattenGroups, repliesAll]
  | cons g gs ih =>
    simp only [flattenGroups, repliesAll, List.map_cons, List.cons_append]
    apply List.Perm.cons
    have h1 : List.Perm (g.replies ++ flattenGroups gs)
        (g.replies ++ (List.map ThreadGroup.message gs ++ repliesAll gs)) :=
      List.Perm.append_left g.replies ih
    have h2 : List.Perm (g.replies ++ List.map ThreadGroup.message gs)
        (List.map ThreadGroup.message gs ++ g.replies) := List.perm_append_comm
    have h3 := List.Perm.append_right (repliesAll gs) h2
    simpa [List.append_assoc] using h1.trans (by simpa [List.append_assoc] using h3)

theorem mem_repliesAll {m : Message} :
    ∀ {gs : List ThreadGroup}, m ∈ repliesAll gs ↔ ∃ g ∈ gs, m ∈ g.replies := by
  intro gs
  induction gs with
  | nil => simp [repliesAll]
  | cons g gs ih => simp [repliesAll, ih, List.mem_append]

theorem wf_addReply {pid : String} {m : Message} (hm : parentOf m = some pid) :
    ∀ {gs : List ThreadGroup}, (∀ g ∈ gs, GroupWF g) →
      ∀ g' ∈ addReplyToFirst pid m gs, GroupWF g' := by
  intro gs
  induction gs with
  | nil =>
    intro _ g' hg'
    simp only [addReplyToFirst, List.mem_singleton] at hg'
    subst hg'
    exact ⟨rfl, by simp [mkGroup]⟩
  | cons g gs ih =>
    intro h g' hg'
    by_cases hid : g.id = pid
    · simp only [addReplyToFirst, if_pos hid, List.mem_cons] at hg'
      rcases hg' with hg' | hg'
      · subst hg'
        obtain ⟨h1, h2⟩ := h g (List.mem_cons_self g gs)
        refine ⟨h1, ?_⟩
        intro r hr
        simp only [pushReply, List.mem_append, List.mem_singleton] at hr
        rcases hr with hr | hr
        · exact h2 r hr
        · subst hr; simp [pushReply, hm, hid]
      · exact h g' (List.mem_cons_of_mem g hg')
    · simp only [addReplyToFirst, if_neg hid, List.mem_cons] at hg'
      rcases hg' with hg' | hg'
      · subst hg'; exact h g' (List.mem_cons_self g' gs)
      · exact ih (fun x hx => h x (List.mem_cons_of_mem g hx)) g' hg'

theorem wf_groupStep {gs : List ThreadGroup} {m : Message}
    (h : ∀ g ∈ gs, GroupWF g) : ∀ g' ∈ groupStep gs m, GroupWF g' := by
  unfold groupStep
  cases hp : parentOf m with
  | some pid => exact wf_addReply hp h
  | none =>
    intro g' hg'
    rcases List.mem_append.mp hg' with hg' | hg'
    · exact h g' hg'
    · simp only [List.mem_singleton] at hg'
      subst hg'
      exact ⟨rfl, by simp [mkGroup]⟩

theorem wf_foldl (msgs : List Message) :
    ∀ acc : List ThreadGroup, (∀ g ∈ acc, GroupWF g) →
      ∀ g ∈ List.foldl groupStep acc msgs, GroupWF g := by
  induction msgs with
  | nil => intro acc h; simpa using h
  | cons m ms ih =>
    intro acc h
    simpa [List.foldl_cons] using ih (groupStep acc m) (wf_groupStep h)

theorem wf_group (msgs : List Message) : ∀ g ∈ group msgs, GroupWF g :=
  wf_foldl msgs [] (by simp)

theorem groupLe_refl (g : ThreadGroup) : GroupLe g g :=
  ⟨rfl, rfl, fun _ h => h⟩

theorem groupLe_trans {g1 g2 g3 : ThreadGroup} (h12 : GroupLe g1 g2) (h23 : GroupLe g2 g3) :
    GroupLe g1 g3 :=
  ⟨h23.1.trans h12.1, h23.2.1.trans h12.2.1, fun _ hr => h23.2.2 (h12.2.2 hr)⟩

theorem addReply_mono (pid : String) (m : Message) {g : ThreadGroup} :
    ∀ {gs : List ThreadGroup}, g ∈ gs →
      ∃ g' ∈ addReplyToFirst pid m gs, GroupLe g g' := by
  intro gs
  induction gs with
  | nil => intro h; cases h
  | cons x gs ih =>
    intro hg
    by_cases hx : x.id = pid
    · simp only [addReplyToFirst, if_pos hx]
      rcases List.mem_cons.mp hg with hg | hg
      · subst hg
        exact ⟨pushReply g m, List.mem_cons_self _ _,
          rfl, rfl, fun r hr => by simp [pushReply, List.mem_append, hr]⟩
      · exact ⟨g, List.mem_cons_of_mem _ hg, groupLe_refl g⟩
    · simp only [addReplyToFirst, if_neg hx]
      rcases List.mem_cons.mp hg with hg | hg
      · subst hg
        exact ⟨g, List.mem_cons_self _ _, groupLe_refl g⟩
      · obtain ⟨g', hg', hle⟩ := ih hg
        exact ⟨g', List.mem_cons_of_mem _ hg', hle⟩

theorem groupStep_mono {gs : List ThreadGroup} {g : ThreadGroup} (m : Message)
    (hg : g ∈ gs) : ∃ g' ∈ groupStep gs m, GroupLe g g' := by
  unfold groupStep
  cases parentOf m with
  | some pid => exact addReply_mono pid m hg
  | none => exact ⟨g, List.mem_append_left _ hg, groupLe_refl g⟩

theorem foldl_mono (msgs : List Message) :
    ∀ (acc : List ThreadGroup) (g : ThreadGroup), g ∈ acc →
      ∃ g' ∈ List.foldl groupStep acc msgs, GroupLe g g' := by
  induction msgs with
  | nil =>
    intro acc g hg
    exact ⟨g, by simpa using hg, groupLe_refl g⟩
  | cons m ms ih =>
    intro acc g hg
    obtain ⟨g1, hg1, hle1⟩ := groupStep_mono m hg
    obtain ⟨g2, hg2, hle2⟩ := ih (groupStep acc m) g1 hg1
    exact ⟨g2, by simpa [List.foldl_cons] using hg2, groupLe_trans hle1 hle2⟩

theorem group_append_mono {xs : List Message} {g : ThreadGroup} (ys : List Message)
    (hg : g ∈ group xs) : ∃ g' ∈ group (xs ++ ys), GroupLe g g' := by
  rw [group_append]
  exact foldl_mono ys (group xs) g hg

theorem nodup_map_ne_of_split {α β : Type} {f : α → β} {l1 l2 : List α} {x : α}
    (h : ((l1 ++ x :: l2).map f).Nodup) :
    (∀ y ∈ l1, f y ≠ f x) ∧ ∀ y ∈ l2, f y ≠ f x := by
  rw [List.map_append, List.map_cons] at h
  obtain ⟨h1, h2, hdisj⟩ := List.nodup_append.mp h
  constructor
  · intro y hy heq
    exact hdisj (List.mem_map_of_mem f hy) (by simp [heq])
  · intro y hy heq
    have := (List.nodup_cons.mp h2).1
    exact this (heq ▸ List.mem_map_of_mem f hy)

theorem flatten_group_perm (msgs : List Message) :
    List.Perm (flattenGroups (group msgs)) msgs := by
  have h := flatten_foldl msgs []
  simpa [group, flattenGroups] using h

theorem nodup_anchor_reply_ids {msgs : List Message}
    (hnd : (msgs.map Message.id).Nodup) :
    (((group msgs).map ThreadGroup.message).map Message.id ++
      (repliesAll (group msgs)).map Message.id).Nodup := by
  have hp1 : List.Perm ((flattenGroups (group msgs)).map Message.id) (msgs.map Message.id) :=
    List.Perm.map Message.id (flatten_group_perm msgs)
  have hnd1 : ((flattenGroups (group msgs)).map Message.id).Nodup :=
    hp1.nodup_iff.mpr hnd
  have hp2 := List.Perm.map Message.id (flatten_split (group msgs))
  rw [List.map_append] at hp2
  exact hp2.nodup_iff.mp hnd1

theorem groupIds_nodup {msgs : List Message} (hnd : (msgs.map Message.id).Nodup) :
    ((group msgs).map ThreadGroup.id).Nodup := by
  have h := (List.nodup_append.mp (nodup_anchor_reply_ids hnd)).1
  rw [List.map_map] at h
  have heq : (group msgs).map (Message.id ∘ ThreadGroup.message) =
      (group msgs).map ThreadGroup.id :=
    List.map_congr_left (fun g hg => ((wf_group msgs g hg).1).symm)
  rwa [heq] at h

theorem reply_id_ne_group_id {msgs : List Message} (hnd : (msgs.map Message.id).Nodup)
    {g' : ThreadGroup} (hg' : g' ∈ group msgs) {r : Message} (hr : r ∈ g'.replies) :
    ∀ g ∈ group msgs, r.id ≠ g.id := by
  intro g hg heq
  have hdisj := List.disjoint_of_nodup_append (nodup_anchor_reply_ids hnd)
  have hmem_r : r.id ∈ (repliesAll (group msgs)).map Message.id :=
    List.mem_map_of_mem Message.id (mem_repliesAll.mpr ⟨g', hg', hr⟩)
  have hmem_g : r.id ∈ ((group msgs).map ThreadGroup.message).map Message.id := by
    rw [List.map_map]
    have : (Message.id ∘ ThreadGroup.message) g = r.id := by
      simp [Function.comp, ← (wf_group msgs g hg).1, heq]
    exact this ▸ List.mem_map_of_mem _ hg
  exact hdisj hmem_g hmem_r

theorem wellParented_of_snoc {ms : List Message} {last : Message}
    (h : WellParented (ms ++ [last])) : WellParented ms := by
  intro i hi
  have hi' : i < (ms ++ [last]).length := by simp; omega
  have hgl : (ms ++ [last])[i] = ms[i] := List.getElem_append_left hi
  have htk : (ms ++ [last]).take i = ms.take i := by
    rw [List.take_append_eq_append_take]
    have : i - ms.length = 0 := by omega
    simp [this]
  have := h i hi'
  rw [hgl, htk] at this
  exact this

theorem wellParented_last {ms : List Message} {last : Message} {p : String}
    (h : WellParented (ms ++ [last])) (hp : parentOf last = some p) :
    ∃ a ∈ ms, parentOf a = none ∧ a.id = p := by
  have hi : ms.length < (ms ++ [last]).length := by simp
  have hgl : (ms ++ [last])[ms.length] = last :=
    List.getElem_concat_length ms last ms.length rfl hi
  have htk : (ms ++ [last]).take ms.length = ms := List.take_left ms [last]
  have := h ms.length hi
  rw [hgl, htk, hp] at this
  rcases this with hnone | ⟨a, ha, hap, haid⟩
  · cases hnone
  · exact ⟨a, ha, hap, by injection haid with h'; exact h'.symm⟩

theorem no_reference_to_last {ms : List Message} {last : Message}
    (hnd : ((ms ++ [last]).map Message.id).Nodup)
    (hwp : WellParented (ms ++ [last])) :
    ∀ m' ∈ ms, parentOf m' ≠ some last.id := by
  intro m' hm' heq
  obtain ⟨i, hi, hig⟩ := List.mem_iff_getElem.mp hm'
  have hi' : i < (ms ++ [last]).length := by simp; omega
  have hgl : (ms ++ [last])[i] = ms[i] := List.getElem_append_left hi
  have htk : (ms ++ [last]).take i = ms.take i := by
    rw [List.take_append_eq_append_take]
    have : i - ms.length = 0 := by omega
    simp [this]
  have hcase := hwp i hi'
  rw [hgl, htk, hig, heq] at hcase
  rcases hcase with hnone | ⟨a, ha, _, haid⟩
  · cases hnone
  · have haid' : a.id = last.id := by injection haid with h'; exact h'.symm
    have hams : a ∈ ms := List.take_subset i ms ha
    rw [List.map_append] at hnd
    have hdisj := List.disjoint_of_nodup_append hnd
    exact hdisj (List.mem_map_of_mem Message.id hams) (by simp [haid'])

theorem repliesOf_snoc (ms : List Message) (last : Message) (aid : String) :
    repliesOf (ms ++ [last]) aid =
      repliesOf ms aid ++ if parentOf last = some aid then [last] else [] := by
  by_cases h : parentOf last = some aid <;>
    simp [repliesOf, List.filter_append, List.filter_cons, h]

theorem anchorsOf_snoc_none {ms : List Message} {last : Message}
    (h : parentOf last = none) : anchorsOf (ms ++ [last]) = anchorsOf ms ++ [last] := by
  simp [anchorsOf, List.filter_append, List.filter_cons, h]

theorem anchorsOf_snoc_some {ms : List Message} {last : Message} {p : String}
    (h : parentOf last = some p) : anchorsOf (ms ++ [last]) = anchorsOf ms := by
  simp [anchorsOf, List.filter_append, List.filter_cons, h]

theorem anchorIds_nodup {ms : List Message} (hnd : (ms.map Message.id).Nodup) :
    ((anchorsOf ms).map Message.id).Nodup :=
  List.Nodup.sublist (List.Sublist.map Message.id (List.filter_sublist ms)) hnd

/-- On a store with pairwise-distinct ids in which every parented message
references an earlier anchor, the code's fold produces exactly the spec's
description: one group per anchor, in order, with exactly the matching
replies, in order. -/
theorem group_eq_groupSpec (msgs : List Message) :
    (msgs.map Message.id).Nodup → WellParented msgs → group msgs = groupSpec msgs := by
  induction msgs using List.reverseRecOn with
  | nil => intro _ _; rfl
  | append_singleton ms last ih =>
    intro hnd hwp
    have hnd' : (ms.map Message.id).Nodup := by
      rw [List.map_append] at hnd
      exact List.Nodup.of_append_left hnd
    have hwp' : WellParented ms := wellParented_of_snoc hwp
    have ihe := ih hnd' hwp'
    rw [group_snoc, ihe]
    have hrep : ∀ aid, repliesOf (ms ++ [last]) aid = repliesOf ms aid ++
        (if parentOf last = some aid then [last] else []) := repliesOf_snoc ms last
    cases hp : parentOf last with
    | none =>
      simp only [groupStep, hp]
      have hnolast : repliesOf ms last.id = [] := by
        rw [repliesOf, List.filter_eq_nil_iff]
        intro m' hm'
        simp only [decide_eq_true_eq]
        exact no_reference_to_last hnd hwp m' hm'
      unfold groupSpec
      rw [anchorsOf_snoc_none hp, List.map_append]
      congr 1
      · apply List.map_congr_left
        intro a _
        rw [hrep a.id, hp]
        simp
      · simp only [List.map_cons, List.map_nil]
        rw [hrep last.id, hnolast, hp]
        simp [mkGroup]
    | some p =>
      simp only [groupStep, hp]
      obtain ⟨a, hams, hap, haid⟩ := wellParented_last hwp hp
      have haanch : a ∈ anchorsOf ms := List.mem_filter.mpr ⟨hams, by simp [hap]⟩
      obtain ⟨A1, A2, hsplit⟩ := List.append_of_mem haanch
      have hanodup : ((anchorsOf ms).map Message.id).Nodup := anchorIds_nodup hnd'
      rw [hsplit] at hanodup
      obtain ⟨hA1, hA2⟩ := nodup_map_ne_of_split hanodup
      unfold groupSpec
      rw [anchorsOf_snoc_some hp, hsplit]
      simp only [List.map_append, List.map_cons]
      have hfirst := addReply_first_match p last
        { id := a.id, message := a, replies := repliesOf ms a.id }
        (A2.map (fun x => { id := x.id, message := x, replies := repliesOf ms x.id }))
        (A1.map (fun x => { id := x.id, message := x, replies := repliesOf ms x.id }))
        (by
          intro g hg
          obtain ⟨y, hy, hyg⟩ := List.mem_map.mp hg
          rw [← hyg]
          simpa [haid] using hA1 y hy)
        (by simp [haid])
      rw [hfirst]
      congr 1
      · apply List.map_congr_left
        intro y hy
        have hne : p ≠ y.id := fun hc => hA1 y hy (by rw [haid, hc])
        rw [hrep y.id, hp]
        simp [hne]
      · congr 1
        · rw [hrep a.id, hp, if_pos (by rw [haid])]
          simp [pushReply]
        · apply List.map_congr_left
          intro y hy
          have hne : p ≠ y.id := fun hc => hA2 y hy (by rw [haid, hc])
          rw [hrep y.id, hp]
          simp [hne]

/-- Claim C1: for every sequence of appended messages with pairwise-distinct
ids in which every message bearing a parent reference points at the id of an
earlier message that has no parent reference, `group()` returns exactly one
ThreadGroup per parentless message, in the insertion order of the anchors,
with each group's replies being exactly the messages whose parent reference
is that anchor's id, in their relative insertion order — i.e. `group`
coincides with the spec-side description `groupSpec`. -/
theorem claim1_group_matches_spec (msgs : List Message)
    (hnd : (msgs.map Message.id).Nodup) (hwp : WellParented msgs) :
    group msgs = groupSpec msgs :=
  group_eq_groupSpec msgs hnd hwp

theorem claim1_witness :
    ((([msgA, msgB, msgR]).map Message.id).Nodup ∧ WellParented [msgA, msgB, msgR]) ∧
      group [msgA, msgB, msgR] = groupSpec [msgA, msgB, msgR] :=
  ⟨⟨by decide, by decide⟩, claim1_group_matches_spec [msgA, msgB, msgR] (by decide) (by decide)⟩

/-- Claim C2: a message whose parent reference does not match the id of any
group produced from the messages preceding it (including the case of no
parent reference at all) is treated as a new top-level anchor: its own
ThreadGroup is appended to the output at that point, it survives as an anchor
of the final output, and no error is raised (`group` is a total function). -/
theorem claim2_orphan_becomes_anchor (pre post : List Message) (m : Message)
    (h : ∀ g ∈ group pre, parentOf m ≠ some g.id) :
    group (pre ++ [m]) = group pre ++ [mkGroup m] ∧
      ∃ g ∈ group (pre ++ m :: post), g.message = m ∧ g.id = m.id := by
  have h1 : group (pre ++ [m]) = group pre ++ [mkGroup m] := by
    rw [group_snoc]
    cases hp : parentOf m with
    | none => simp [groupStep, hp]
    | some pid =>
      simp only [groupStep, hp]
      apply addReply_no_match
      intro g hg hgid
      exact h g hg (by rw [hp, hgid])
  refine ⟨h1, ?_⟩
  have hmem : mkGroup m ∈ group (pre ++ [m]) := by
    rw [h1]
    exact List.mem_append_right _ (List.mem_singleton.mpr rfl)
  obtain ⟨g', hg', hle⟩ := group_append_mono post hmem
  have heq : (pre ++ [m]) ++ post = pre ++ m :: post := by simp
  rw [heq] at hg'
  exact ⟨g', hg', hle.2.1, hle.1⟩

theorem claim2_witness :
    (∀ g ∈ group [msgA], parentOf msgOrphan ≠ some g.id) ∧
      (group ([msgA] ++ [msgOrphan]) = group [msgA] ++ [mkGroup msgOrphan] ∧
        ∃ g ∈ group ([msgA] ++ msgOrphan :: [msgB]),
          g.message = msgOrphan ∧ g.id = msgOrphan.id) :=
  ⟨by decide, claim2_orphan_becomes_anchor [msgA] [msgB] msgOrphan (by decide)⟩

/-- Claim C3: for every input sequence, flattening the output of `group()`
(each group contributing its anchor followed by its replies) is a permutation
of the input: every message appears exactly once across anchors and replies,
none dropped, none duplicated. -/
theorem claim3_partition (msgs : List Message) :
    List.Perm (flattenGroups (group msgs)) msgs :=
  flatten_group_perm msgs

/-- Claim C4 counterexample: the code's `append` (the
`setMessages(prev => [...prev, m])` of `handleSendMessage`) called with an id
already present does not fail with `DuplicateIdError`: it returns the store
with the duplicate appended, so the resulting id list is not duplicate-free —
while the spec-side `appendSpec` does error on the same input. -/
theorem claim4_counterexample :
    append [msgDupA] msgDupB = [msgDupA, msgDupB] ∧
      appendSpec [msgDupA] msgDupB = Except.error ThreadError.duplicateId ∧
      ¬ ((append [msgDupA] msgDupB).map Message.id).Nodup :=
  ⟨rfl, rfl, by decide⟩

/-- Claim C4, amended: `append` performs no duplicate-id check: for every
store and message, also when the message's id is already present, it simply
appends the message at the end of the ordered collection (duplicate ids are
then really present in the store). -/
theorem claim4_append_never_fails (store : List Message) (m : Message)
    (hdup : m.id ∈ store.map Message.id) :
    append store m = store ++ [m] ∧ ¬ ((append store m).map Message.id).Nodup := by
  refine ⟨rfl, ?_⟩
  intro hnd
  rw [append, List.map_append] at hnd
  exact List.disjoint_of_nodup_append hnd hdup (by simp)

theorem claim4_witness :
    msgDupB.id ∈ ([msgDupA]).map Message.id ∧
      (append [msgDupA] msgDupB = [msgDupA] ++ [msgDupB] ∧
        ¬ ((append [msgDupA] msgDupB).map Message.id).Nodup) :=
  ⟨by decide, claim4_append_never_fails [msgDupA] msgDupB (by decide)⟩

/-- Claim C5: grouping is one level deep.  Every reply in every produced
ThreadGroup carries exactly its group's anchor id as parent reference; and
(for stores with pairwise-distinct ids) a message whose parent reference is
the id of a message that was itself placed as a reply never appears inside
any replies list — it becomes an anchor of its own group instead. -/
theorem claim5_one_level_deep (msgs : List Message) :
    (∀ g ∈ group msgs, ∀ r ∈ g.replies, parentOf r = some g.message.id) ∧
      ((msgs.map Message.id).Nodup →
        ∀ m ∈ msgs, ∀ g' ∈ group msgs, ∀ r ∈ g'.replies, parentOf m = some r.id →
          (∀ g ∈ group msgs, m ∉ g.replies) ∧ ∃ g ∈ group msgs, g.message = m) := by
  constructor
  · intro g hg r hr
    obtain ⟨h1, h2⟩ := wf_group msgs g hg
    rw [← h1]
    exact h2 r hr
  · intro hnd m hm g' hg' r hr hpm
    have hnotin : ∀ g ∈ group msgs, m ∉ g.replies := by
      intro g hg hmem
      have h2 : parentOf m = some g.id := (wf_group msgs g hg).2 m hmem
      rw [hpm] at h2
      have : r.id = g.id := by injection h2
      exact reply_id_ne_group_id hnd hg' hr g hg this
    refine ⟨hnotin, ?_⟩
    have hmf : m ∈ flattenGroups (group msgs) := (flatten_group_perm msgs).mem_iff.mpr hm
    have hsplit := (flatten_split (group msgs)).mem_iff.mp hmf
    rcases List.mem_append.mp hsplit with hleft | hright
    · obtain ⟨g, hg, hgm⟩ := List.mem_map.mp hleft
      exact ⟨g, hg, hgm⟩
    · obtain ⟨g, hg, hmem⟩ := mem_repliesAll.mp hright
      exact absurd hmem (hnotin g hg)

theorem claim5_witness :
    (parentOf msgToReply = some msgR.id) ∧
      ((∀ g ∈ group [msgA, msgR, msgToReply], msgToReply ∉ g.replies) ∧
        ∃ g ∈ group [msgA, msgR, msgToReply], g.message = msgToReply) :=
  ⟨by decide,
    (claim5_one_level_deep [msgA, msgR, msgToReply]).2 (by decide) msgToReply (by decide)
      { id := "1", message := msgA, replies := [msgR] } (by decide) msgR (by decide) (by decide)⟩

/-- Claim C6: `group()` is idempotent over an unchanged store: two calls with
no intervening `append` read the same store and yield equal results
(the grouping pass reads nothing but the message list). -/
theorem claim6_group_idempotent (s1 s2 : List Message) (h : s1 = s2) :
    group s1 = group s2 := by
  rw [h]

theorem claim6_witness : group [msgA, msgB, msgR] = group [msgA, msgB, msgR] :=
  claim6_group_idempotent [msgA, msgB, msgR] [msgA, msgB, msgR] rfl

/-- Claim C7: appending a reply to the first of two anchors changes only the
first anchor's group: from the store [A1, A2] (both parentless), appending R1
with parent reference A1.id yields exactly
[A1 with replies [R1], A2 with empty replies]; A2's group keeps its position
and contents. -/
theorem claim7_frame (A1 A2 R1 : Message)
    (h1 : parentOf A1 = none) (h2 : parentOf A2 = none)
    (h3 : parentOf R1 = some A1.id) :
    group [A1, A2] = [mkGroup A1, mkGroup A2] ∧
      group [A1, A2, R1] =
        [{ id := A1.id, message := A1, replies := [R1] }, mkGroup A2] := by
  constructor
  · simp [group, groupStep, h1, h2]
  · simp [group, groupStep, h1, h2, h3, addReplyToFirst, pushReply, mkGroup]

theorem claim7_witness :
    group [msgA, msgB] = [mkGroup msgA, mkGroup msgB] ∧
      group [msgA, msgB, msgR] =
        [{ id := msgA.id, message := msgA, replies := [msgR] }, mkGroup msgB] :=
  claim7_frame msgA msgB msgR (by decide) (by decide) (by decide)

/-- Claim C8: `group()` on the empty store returns the empty sequence of
ThreadGroups, raising no error. -/
theorem claim8_empty_store : group ([] : List Message) = [] := rfl

/-- Claim C9: a message promoted to anchor by the orphan rule accepts
subsequent replies like any other anchor: if `r`'s parent reference matches no
group built from the messages before it (so `r` forms its own ThreadGroup),
then a later message `m` with parent reference `r.id` ends up in `r`'s
group's replies (store ids pairwise distinct). -/
theorem claim9_orphan_anchor_accepts_replies
    (pre mid post : List Message) (r m : Message)
    (hnd : ((pre ++ r :: mid ++ m :: post).map Message.id).Nodup)
    (horph : ∃ q, parentOf r = some q ∧ ∀ g ∈ group pre, g.id ≠ q)
    (hpm : parentOf m = some r.id) :
    ∃ g ∈ group (pre ++ r :: mid ++ m :: post), g.message = r ∧ m ∈ g.replies := by
  obtain ⟨q, hq, hnoq⟩ := horph
  have h1 : group (pre ++ [r]) = group pre ++ [mkGroup r] := by
    rw [group_snoc]
    simp only [groupStep, hq]
    exact addReply_no_match q r (group pre) hnoq
  have hmem1 : mkGroup r ∈ group (pre ++ [r]) := by
    rw [h1]
    exact List.mem_append_right _ (List.mem_singleton.mpr rfl)
  obtain ⟨g1, hg1, hle1⟩ := group_append_mono mid hmem1
  have hg1id : g1.id = r.id := hle1.1
  have hg1msg : g1.message = r := hle1.2.1
  have hP1eq : (pre ++ [r]) ++ mid ++ (m :: post) = pre ++ r :: mid ++ m :: post := by
    simp
  have hndP1 : ((((pre ++ [r]) ++ mid)).map Message.id).Nodup := by
    rw [← hP1eq] at hnd
    rw [List.map_append] at hnd
    exact List.Nodup.of_append_left hnd
  have hgnd : ((group ((pre ++ [r]) ++ mid)).map ThreadGroup.id).Nodup := groupIds_nodup hndP1
  obtain ⟨l1, l2, hsplitg⟩ := List.append_of_mem hg1
  rw [hsplitg] at hgnd
  have hne := (nodup_map_ne_of_split hgnd).1
  have h5 : group (((pre ++ [r]) ++ mid) ++ [m]) = l1 ++ pushReply g1 m :: l2 := by
    rw [group_snoc]
    simp only [groupStep, hpm]
    rw [hsplitg]
    exact addReply_first_match r.id m g1 l2 l1
      (fun g' hg' hc => hne g' hg' (hc.trans hg1id.symm)) hg1id
  have hmem2 : pushReply g1 m ∈ group (((pre ++ [r]) ++ mid) ++ [m]) := by
    rw [h5]
    exact List.mem_append_right _ (List.mem_cons_self _ _)
  obtain ⟨g2, hg2, hle2⟩ := group_append_mono post hmem2
  have hfin : (((pre ++ [r]) ++ mid) ++ [m]) ++ post = pre ++ r :: mid ++ m :: post := by
    simp
  rw [hfin] at hg2
  refine ⟨g2, hg2, ?_, ?_⟩
  · have hm1 : g2.message = g1.message := hle2.2.1
    rw [hm1, hg1msg]
  · apply hle2.2.2
    simp [pushReply]

theorem claim9_witness :
    ∃ g ∈ group [msgOrphan, msgToOrphan], g.message = msgOrphan ∧ msgToOrphan ∈ g.replies :=
  claim9_orphan_anchor_accepts_replies [] [] [] msgOrphan msgToOrphan (by decide)
    ⟨"zz", by decide, by decide⟩ (by decide)

theorem addReply_replies_subset (pid : String) (m : Message) :
    ∀ l : List ThreadGroup, ∀ x ∈ addReplyToFirst pid m l, ∀ r ∈ x.replies,
      (∃ x0 ∈ l, r ∈ x0.replies) ∨ r = m := by
  intro l
  induction l with
  | nil =>
    intro x hx r hr
    simp only [addReplyToFirst, List.mem_singleton] at hx
    subst hx
    simp [mkGroup] at hr
  | cons y l ih =>
    intro x hx r hr
    by_cases hy : y.id = pid
    · simp only [addReplyToFirst, if_pos hy, List.mem_cons] at hx
      rcases hx with hx | hx
      · subst hx
        simp only [pushReply, List.mem_append, List.mem_singleton] at hr
        rcases hr with hr | hr
        · exact Or.inl ⟨y, List.mem_cons_self y l, hr⟩
        · exact Or.inr hr
      · exact Or.inl ⟨x, List.mem_cons_of_mem y hx, hr⟩
    · simp only [addReplyToFirst, if_neg hy, List.mem_cons] at hx
      rcases hx with hx | hx
      · exact Or.inl ⟨x, List.mem_cons.mpr (Or.inl hx), hr⟩
      · rcases ih x hx r hr with ⟨x0, hx0, hr0⟩ | hrm
        · exact Or.inl ⟨x0, List.mem_cons_of_mem y hx0, hr0⟩
        · exact Or.inr hrm

theorem addReply_preserves_shape (pid X : String) (m : Message) (hne : pid ≠ X)
    (g0 : ThreadGroup) (hg0 : g0.id = X) :
    ∀ l1 l2 : List ThreadGroup,
      ∃ l1' l2', addReplyToFirst pid m (l1 ++ g0 :: l2) = l1' ++ g0 :: l2' ∧
        l1'.map ThreadGroup.id = l1.map ThreadGroup.id ∧
        ∀ x ∈ l2', ∀ r ∈ x.replies, (∃ x0 ∈ l2, r ∈ x0.replies) ∨ r = m := by
  intro l1
  induction l1 with
  | nil =>
    intro l2
    have hg0ne : g0.id ≠ pid := by rw [hg0]; exact fun h => hne h.symm
    refine ⟨[], addReplyToFirst pid m l2, ?_, rfl, ?_⟩
    · simp only [List.nil_append, addReplyToFirst, if_neg hg0ne]
    · exact addReply_replies_subset pid m l2
  | cons y l1 ih =>
    intro l2
    by_cases hy : y.id = pid
    · refine ⟨pushReply y m :: l1, l2, ?_, ?_, ?_⟩
      · simp only [List.cons_append, addReplyToFirst, if_pos hy]
        rfl
      · simp [pushReply]
      · intro x hx r hr; exact Or.inl ⟨x, hx, hr⟩
    · obtain ⟨l1', l2', heq, hids, hrep⟩ := ih l2
      refine ⟨y :: l1', l2', ?_, ?_, hrep⟩
      · simp only [List.cons_append, addReplyToFirst, if_neg hy]
        exact congrArg (fun t => y :: t) heq
      · simp [hids]

/-- First-match stability: once a group list has the shape
`l1 ++ g0 :: l2` with no group of `l1` bearing id `X` and `g0.id = X`, then
folding any further messages keeps that shape: the ids in front never change,
the group at that position keeps its anchor and receives exactly the further
messages whose parent reference is `X` (in order, at the end), and no group
behind it ever holds a reply whose parent reference is `X`. -/
theorem first_match_stable (X : String) (rest : List Message) :
    ∀ (l1 : List ThreadGroup) (g0 : ThreadGroup) (l2 : List ThreadGroup),
      (∀ x ∈ l1, x.id ≠ X) → g0.id = X →
      (∀ x ∈ l2, ∀ r ∈ x.replies, parentOf r ≠ some X) →
      ∃ l1' g' l2', List.foldl groupStep (l1 ++ g0 :: l2) rest = l1' ++ g' :: l2' ∧
        l1'.map ThreadGroup.id = l1.map ThreadGroup.id ∧
        g'.id = X ∧ g'.message = g0.message ∧
        g'.replies = g0.replies ++ rest.filter (fun m' => decide (parentOf m' = some X)) ∧
        ∀ x ∈ l2', ∀ r ∈ x.replies, parentOf r ≠ some X := by
  induction rest with
  | nil =>
    intro l1 g0 l2 h1 h2 h3
    exact ⟨l1, g0, l2, by simp, rfl, h2, rfl, by simp, h3⟩
  | cons m ms ih =>
    intro l1 g0 l2 h1 h2 h3
    rw [List.foldl_cons]
    cases hp : parentOf m with
    | none =>
      have hstep : groupStep (l1 ++ g0 :: l2) m = l1 ++ g0 :: (l2 ++ [mkGroup m]) := by
        simp [groupStep, hp]
      rw [hstep]
      have h3' : ∀ x ∈ l2 ++ [mkGroup m], ∀ r ∈ x.replies, parentOf r ≠ some X := by
        intro x hx r hr
        rcases List.mem_append.mp hx with hx | hx
        · exact h3 x hx r hr
        · simp only [List.mem_singleton] at hx
          subst hx
          simp [mkGroup] at hr
      obtain ⟨l1', g', l2', heq, hids, hid, hmsg, hrep, hinv⟩ :=
        ih l1 g0 (l2 ++ [mkGroup m]) h1 h2 h3'
      refine ⟨l1', g', l2', heq, hids, hid, hmsg, ?_, hinv⟩
      rw [hrep]
      congr 1
      simp [List.filter_cons, hp]
    | some pid =>
      by_cases hpx : pid = X
      · have hpX : parentOf m = some X := by rw [hp, hpx]
        have hstep : groupStep (l1 ++ g0 :: l2) m = l1 ++ pushReply g0 m :: l2 := by
          simp only [groupStep, hpX]
          exact addReply_first_match X m g0 l2 l1 h1 h2
        rw [hstep]
        obtain ⟨l1', g', l2', heq, hids, hid, hmsg, hrep, hinv⟩ :=
          ih l1 (pushReply g0 m) l2 h1 (by simp [pushReply, h2]) h3
        refine ⟨l1', g', l2', heq, hids, hid, hmsg, ?_, hinv⟩
        rw [hrep]
        simp [pushReply, List.filter_cons, hpX, List.append_assoc]
      · obtain ⟨l1a, l2a, heqa, hidsa, hrepa⟩ := addReply_preserves_shape pid X m hpx g0 h2 l1 l2
        have hstep : groupStep (l1 ++ g0 :: l2) m = l1a ++ g0 :: l2a := by
          simp only [groupStep, hp]
          exact heqa
        rw [hstep]
        have h1a : ∀ x ∈ l1a, x.id ≠ X := by
          intro x hx
          have hxid : x.id ∈ l1a.map ThreadGroup.id := List.mem_map_of_mem _ hx
          rw [hidsa] at hxid
          obtain ⟨y, hy, hyx⟩ := List.mem_map.mp hxid
          rw [← hyx]
          exact h1 y hy
        have h3a : ∀ x ∈ l2a, ∀ r ∈ x.replies, parentOf r ≠ some X := by
          intro x hx r hr
          rcases hrepa x hx r hr with ⟨x0, hx0, hr0⟩ | hrm
          · exact h3 x0 hx0 r hr0
          · subst hrm
            rw [hp]
            intro hc
            injection hc with hc
            exact hpx hc
        obtain ⟨l1', g', l2', heq, hids, hid, hmsg, hrep, hinv⟩ := ih l1a g0 l2a h1a h2 h3a
        refine ⟨l1', g', l2', heq, ?_, hid, hmsg, ?_, hinv⟩
        · rw [hids, hidsa]
        · rw [hrep]
          congr 1
          simp [List.filter_cons, hp, hpx]

/-- Claim C10: for any store containing parentless messages sharing one id at
arbitrary positions (`append` rejects nothing, so duplicates can occur):
(i) every parentless message of the store — each duplicate included — starts
its own separate ThreadGroup, appended to the output at its own insertion
point, and survives as an anchor of the final output; (ii) decomposing the
store at the message `a` anchoring the earliest group with that id (no group
built from the messages before `a` carries `a.id`), the final output holds
a's group right after the groups coming from `pre`, no group in front of it
has that id, its replies are exactly the later messages whose parent
reference is that id, in order — so every later such reply is attached to
that earliest group and to no other group, before or behind (first-match
resolution). -/
theorem claim10_duplicate_anchor_first_match (pre rest : List Message) (a : Message)
    (ha : parentOf a = none)
    (hfirst : ∀ g ∈ group pre, g.id ≠ a.id) :
    (∀ pre' a' rest', pre ++ a :: rest = pre' ++ a' :: rest' → parentOf a' = none →
      group (pre' ++ [a']) = group pre' ++ [mkGroup a'] ∧
      ∃ g ∈ group (pre ++ a :: rest), g.id = a'.id ∧ g.message = a') ∧
    ∃ l1 g l2, group (pre ++ a :: rest) = l1 ++ g :: l2 ∧
      l1.length = (group pre).length ∧ (∀ g' ∈ l1, g'.id ≠ a.id) ∧
      g.id = a.id ∧ g.message = a ∧
      g.replies = rest.filter (fun m' => decide (parentOf m' = some a.id)) ∧
      ∀ m' ∈ rest, parentOf m' = some a.id →
        m' ∈ g.replies ∧ (∀ g' ∈ l1, m' ∉ g'.replies) ∧ (∀ g' ∈ l2, m' ∉ g'.replies) := by
  constructor
  · intro pre' a' rest' hdec ha'
    have hpush : group (pre' ++ [a']) = group pre' ++ [mkGroup a'] := by
      rw [group_snoc]
      simp [groupStep, ha']
    refine ⟨hpush, ?_⟩
    have hmem : mkGroup a' ∈ group (pre' ++ [a']) := by
      rw [hpush]
      exact List.mem_append_right _ (List.mem_singleton.mpr rfl)
    obtain ⟨g, hg, hle⟩ := group_append_mono rest' hmem
    have he : (pre' ++ [a']) ++ rest' = pre ++ a :: rest := by
      rw [hdec]
      simp
    rw [he] at hg
    exact ⟨g, hg, hle.1, hle.2.1⟩
  · have hsnoc : group (pre ++ [a]) = group pre ++ [mkGroup a] := by
      rw [group_snoc]
      simp [groupStep, ha]
    obtain ⟨l1, g, l2, heq, hids, hid, hmsg, hrep, hinv⟩ :=
      first_match_stable a.id rest (group pre) (mkGroup a) [] hfirst rfl (by simp)
    have hkey : group (pre ++ a :: rest) = l1 ++ g :: l2 := by
      have he : pre ++ a :: rest = (pre ++ [a]) ++ rest := by simp
      rw [he, group_append, hsnoc]
      exact heq
    have hl1 : ∀ g' ∈ l1, g'.id ≠ a.id := by
      intro g' hg'
      have hxid : g'.id ∈ l1.map ThreadGroup.id := List.mem_map_of_mem _ hg'
      rw [hids] at hxid
      obtain ⟨y, hy, hyx⟩ := List.mem_map.mp hxid
      rw [← hyx]
      exact hfirst y hy
    have hrep' : g.replies = rest.filter (fun m' => decide (parentOf m' = some a.id)) := by
      simpa [mkGroup] using hrep
    refine ⟨l1, g, l2, hkey, ?_, hl1, hid, hmsg, hrep', ?_⟩
    · have hlen := congrArg List.length hids
      simpa using hlen
    · intro m' hm' hpm'
      refine ⟨?_, ?_, ?_⟩
      · rw [hrep']
        exact List.mem_filter.mpr ⟨hm', by simp [hpm']⟩
      · intro g' hg' hmem'
        have hg'mem : g' ∈ group (pre ++ a :: rest) := by
          rw [hkey]
          exact List.mem_append_left _ hg'
        have hwfg := (wf_group _ g' hg'mem).2 m' hmem'
        rw [hpm'] at hwfg
        injection hwfg with hwfg
        exact hl1 g' hg' hwfg.symm
      · intro g' hg' hmem'
        exact absurd hpm' (hinv g' hg' m' hmem')

theorem claim10_witness :
    ∃ l1 g l2,
      group (([] : List Message) ++ msgDupA :: [msgDupB, msgToDup]) = l1 ++ g :: l2 ∧
      l1.length = (group ([] : List Message)).length ∧ (∀ g' ∈ l1, g'.id ≠ msgDupA.id) ∧
      g.id = msgDupA.id ∧ g.message = msgDupA ∧
      g.replies = [msgDupB, msgToDup].filter (fun m' => decide (parentOf m' = some msgDupA.id)) ∧
      ∀ m' ∈ [msgDupB, msgToDup], parentOf m' = some msgDupA.id →
        m' ∈ g.replies ∧ (∀ g' ∈ l1, m' ∉ g'.replies) ∧ (∀ g' ∈ l2, m' ∉ g'.replies) :=
  (claim10_duplicate_anchor_first_match [] [msgDupB, msgToDup] msgDupA
    (by decide) (by decide)).2

end ThreadModel
